import Mathlib

/-!
Shallow embedding of the line-classification core of the code-glimpse-report
repository (src/src/components/CodeAnalyzer.tsx): language resolution from a
file name, the comment-grammar table, the per-file line classifier, and the
aggregation of per-file stats into per-language and grand totals.

Strings are handled as `List Char`; the JavaScript string primitives used by
the source (`split`, `trim`, `includes`, `startsWith`, `toLowerCase`) are
embedded as functions on `List Char` with the same semantics for the
single-character separators and ASCII marker strings the source uses.
-/

/-- JS `String.prototype.split(sep)` with a single-character separator:
always returns at least one (possibly empty) piece. -/
def jsSplit (sep : Char) : List Char → List (List Char)
  | [] => [[]]
  | c :: t =>
    let r := jsSplit sep t
    if c = sep then [] :: r
    else
      match r with
      | [] => [[c]]
      | h :: t2 => (c :: h) :: t2

/-- Whitespace as recognized by JS `trim` on the ASCII range. -/
def isJsWhitespace (c : Char) : Bool :=
  c = ' ' || c = '\t' || c = '\n' || c = '\r' || c = '\x0b' || c = '\x0c'

/-- JS `String.prototype.trim`: drop whitespace from both ends. -/
def jsTrim (l : List Char) : List Char :=
  ((l.dropWhile isJsWhitespace).reverse.dropWhile isJsWhitespace).reverse

/-- JS `String.prototype.includes`: substring containment. -/
def jsIncludes (pat : List Char) : List Char → Bool
  | [] => pat.isEmpty
  | c :: t => pat.isPrefixOf (c :: t) || jsIncludes pat t

/-- JS `String.prototype.startsWith`. -/
def jsStartsWith (pat l : List Char) : Bool :=
  pat.isPrefixOf l

/-- JS `String.prototype.toLowerCase` on the ASCII range. -/
def jsToLower (l : List Char) : List Char :=
  l.map Char.toLower

/-- The `languageMap` extension table of `getLanguageFromExtension`,
in source order. -/
def languageMap : List (String × String) :=
  [("js", "JavaScript"), ("jsx", "JavaScript React"),
   ("ts", "TypeScript"), ("tsx", "TypeScript React"),
   ("py", "Python"), ("java", "Java"),
   ("cpp", "C++"), ("cc", "C++"), ("cxx", "C++"),
   ("c", "C"), ("h", "C Header"), ("hpp", "C++ Header"),
   ("cs", "C#"), ("php", "PHP"), ("rb", "Ruby"),
   ("go", "Go"), ("rs", "Rust"), ("swift", "Swift"),
   ("kt", "Kotlin"), ("dart", "Dart"), ("vue", "Vue"),
   ("html", "HTML"), ("htm", "HTML"),
   ("css", "CSS"), ("scss", "SCSS"), ("sass", "Sass"), ("less", "Less"),
   ("xml", "XML"), ("json", "JSON"), ("md", "Markdown"), ("txt", "Text"),
   ("sql", "SQL"), ("sh", "Shell"), ("bat", "Batch"), ("ps1", "PowerShell"),
   ("yaml", "YAML"), ("yml", "YAML")]

/-- `filename.split('.').pop()?.toLowerCase() || ''`: the last piece of the
dot-split of the file name, lowercased (the split is never empty, so `pop`
never yields `undefined`; a falsy — empty — result stays empty). -/
def jsExtOf (filename : String) : String :=
  String.mk (jsToLower ((jsSplit '.' filename.toList).getLastD []))

/-- `getLanguageFromExtension` of the source: table lookup with the
"Unknown" fallback. -/
def getLanguageFromExtension (filename : String) : String :=
  (languageMap.lookup (jsExtOf filename)).getD "Unknown"

/-- The comment grammar of one language: optional single-line marker and the
optional block start/end marker pair. -/
structure CommentPatterns where
  single : Option String
  blockStart : Option String
  blockEnd : Option String
deriving DecidableEq, Repr

/-- The `patterns` table of `getCommentPatterns`, in source order. -/
def patternsList : List (String × CommentPatterns) :=
  [("JavaScript", ⟨some "//", some "/*", some "*/"⟩),
   ("JavaScript React", ⟨some "//", some "/*", some "*/"⟩),
   ("TypeScript", ⟨some "//", some "/*", some "*/"⟩),
   ("TypeScript React", ⟨some "//", some "/*", some "*/"⟩),
   ("Java", ⟨some "//", some "/*", some "*/"⟩),
   ("C++", ⟨some "//", some "/*", some "*/"⟩),
   ("C", ⟨some "//", some "/*", some "*/"⟩),
   ("C Header", ⟨some "//", some "/*", some "*/"⟩),
   ("C++ Header", ⟨some "//", some "/*", some "*/"⟩),
   ("C#", ⟨some "//", some "/*", some "*/"⟩),
   ("PHP", ⟨some "//", some "/*", some "*/"⟩),
   ("CSS", ⟨none, some "/*", some "*/"⟩),
   ("SCSS", ⟨some "//", some "/*", some "*/"⟩),
   ("Sass", ⟨some "//", none, none⟩),
   ("Less", ⟨some "//", some "/*", some "*/"⟩),
   ("Python", ⟨some "#", some "\"\"\"", some "\"\"\""⟩),
   ("Ruby", ⟨some "#", some "=begin", some "=end"⟩),
   ("Go", ⟨some "//", some "/*", some "*/"⟩),
   ("Rust", ⟨some "//", some "/*", some "*/"⟩),
   ("Swift", ⟨some "//", some "/*", some "*/"⟩),
   ("Kotlin", ⟨some "//", some "/*", some "*/"⟩),
   ("Dart", ⟨some "//", some "/*", some "*/"⟩),
   ("Shell", ⟨some "#", none, none⟩),
   ("Batch", ⟨some "REM", none, none⟩),
   ("PowerShell", ⟨some "#", some "<#", some "#>"⟩),
   ("HTML", ⟨none, some "<!--", some "-->"⟩),
   ("XML", ⟨none, some "<!--", some "-->"⟩),
   ("Vue", ⟨none, some "<!--", some "-->"⟩),
   ("SQL", ⟨some "--", some "/*", some "*/"⟩),
   ("YAML", ⟨some "#", none, none⟩)]

/-- `getCommentPatterns` of the source: table lookup with the default
`{ single: '//' }` fallback. -/
def getCommentPatterns (language : String) : CommentPatterns :=
  (patternsList.lookup language).getD ⟨some "//", none, none⟩

/-- JS truthiness of an optional string field: present and non-empty. -/
def truthy : Option String → Bool
  | none => false
  | some s => s ≠ ""

/-- Per-file result of `analyzeFileContent` (the object literal the source
returns), called FileStats by the specification. -/
structure FileStats where
  name : String
  language : String
  lines : Nat
  blank : Nat
  comment : Nat
  code : Nat
deriving DecidableEq, Repr

/-- The mutable scan state of the classifier loop: the three counters and the
`inBlockComment` flag. -/
structure ScanState where
  blank : Nat
  comment : Nat
  code : Nat
  inBlockComment : Bool
deriving DecidableEq, Repr

/-- The block-comment branch of the loop (`if (patterns.blockStart &&
patterns.blockEnd) ...`): yields (isComment, new inBlockComment). -/
def blockScan (patterns : CommentPatterns) (inBlock : Bool)
    (trimmed : List Char) : Bool × Bool :=
  if truthy patterns.blockStart && truthy patterns.blockEnd then
    let bs := (patterns.blockStart.getD "").toList
    let be := (patterns.blockEnd.getD "").toList
    if inBlock then
      (true, if jsIncludes be trimmed then false else true)
    else if jsIncludes bs trimmed then
      (true, if jsIncludes be trimmed then false else true)
    else
      (false, inBlock)
  else
    (false, inBlock)

/-- The single-line-comment branch of the loop (`if (!isComment &&
patterns.single) ...`), with the case-insensitive `REM ` special case. -/
def singleScan (patterns : CommentPatterns) (trimmed : List Char) : Bool :=
  match patterns.single with
  | none => false
  | some s =>
    s ≠ "" &&
      (jsStartsWith s.toList trimmed ||
        (s = "REM" && jsStartsWith "rem ".toList (jsToLower trimmed)))

/-- One iteration of the `for (const line of lines)` loop of
`analyzeFileContent`. -/
def scanLine (patterns : CommentPatterns) (st : ScanState)
    (line : List Char) : ScanState :=
  let trimmed := jsTrim line
  if trimmed = [] then
    { st with blank := st.blank + 1 }
  else
    let b := blockScan patterns st.inBlockComment trimmed
    let isComment := b.1 || singleScan patterns trimmed
    if isComment then
      { st with comment := st.comment + 1, inBlockComment := b.2 }
    else
      { st with code := st.code + 1, inBlockComment := b.2 }

/-- `analyzeFileContent` of the source: split on newline, scan every line,
return the per-file stats. -/
def analyzeFileContent (content filename language : String) : FileStats :=
  let lines := jsSplit '\n' content.toList
  let patterns := getCommentPatterns language
  let final := lines.foldl (scanLine patterns) ⟨0, 0, 0, false⟩
  ⟨filename, language, lines.length, final.blank, final.comment, final.code⟩

/-- Per-language aggregate (`LanguageStats` interface of the source). -/
structure LanguageStats where
  files : Nat
  blank : Nat
  comment : Nat
  code : Nat
  total : Nat
deriving DecidableEq, Repr

/-- The all-zero LanguageStats the source uses to initialize entries and the
grand-total reduce. -/
def zeroLS : LanguageStats := ⟨0, 0, 0, 0, 0⟩

/-- Field-wise addition of LanguageStats, the body of the grand-total
`reduce`. -/
def addLS (x y : LanguageStats) : LanguageStats :=
  ⟨x.files + y.files, x.blank + y.blank, x.comment + y.comment,
   x.code + y.code, x.total + y.total⟩

/-- The contribution of one analyzed file to its language bucket. -/
def deltaLS (a : FileStats) : LanguageStats :=
  ⟨1, a.blank, a.comment, a.code, a.lines⟩

/-- The in-place update of `languageStats[language]` performed for one file:
`files++` and the four additive line counters. -/
def bump (a : FileStats) (s : LanguageStats) : LanguageStats :=
  ⟨s.files + 1, s.blank + a.blank, s.comment + a.comment,
   s.code + a.code, s.total + a.lines⟩

/-- Update the first binding of `lang` in an insertion-ordered association
list, appending a freshly zero-initialized entry when absent — the JS
`if (!languageStats[language]) languageStats[language] = {0,...}` followed by
the increments. -/
def updateAssoc (m : List (String × LanguageStats)) (lang : String)
    (f : LanguageStats → LanguageStats) : List (String × LanguageStats) :=
  match m with
  | [] => [(lang, f zeroLS)]
  | (k, v) :: t =>
    if k = lang then (k, f v) :: t else (k, v) :: updateAssoc t lang f

/-- Processing of one per-file analysis by the aggregation loop of
`useCodeAnalyzer`. -/
def aggregateStep (m : List (String × LanguageStats)) (a : FileStats) :
    List (String × LanguageStats) :=
  updateAssoc m a.language (bump a)

/-- The per-language grouping produced by the `for (const file of files)`
loop, as the insertion-ordered association list mirroring the JS object. -/
def aggregateStats (analyses : List FileStats) : List (String × LanguageStats) :=
  analyses.foldl aggregateStep []

/-- The grand-total `reduce` over `Object.values(languageStats)`. -/
def grandTotal (entries : List (String × LanguageStats)) : LanguageStats :=
  entries.foldl (fun acc kv => addLS acc kv.2) zeroLS

/-- The `AnalysisResult` the hook resolves to. -/
structure AnalysisResult where
  languages : List (String × LanguageStats)
  total : LanguageStats
  files : List FileStats
deriving DecidableEq, Repr

/-- `useCodeAnalyzer` of the source, over already-decoded
(name, content) pairs: per-file analysis, per-language grouping, grand
total. -/
def useCodeAnalyzer (files : List (String × String)) : AnalysisResult :=
  let analyses :=
    files.map (fun f => analyzeFileContent f.2 f.1 (getLanguageFromExtension f.1))
  let ls := aggregateStats analyses
  ⟨ls, grandTotal ls, analyses⟩

/-! ## Helper lemmas about the classifier loop -/

lemma scanLine_counts (p : CommentPatterns) (st : ScanState) (line : List Char) :
    (scanLine p st line).blank + (scanLine p st line).comment + (scanLine p st line).code
      = st.blank + st.comment + st.code + 1 := by
  simp only [scanLine]
  split
  · simp; omega
  · split <;> simp <;> omega

lemma foldl_scanLine_counts (p : CommentPatterns) (lines : List (List Char)) :
    ∀ st : ScanState,
      (lines.foldl (scanLine p) st).blank + (lines.foldl (scanLine p) st).comment +
          (lines.foldl (scanLine p) st).code
        = st.blank + st.comment + st.code + lines.length := by
  induction lines with
  | nil => intro st; simp
  | cons l t ih =>
    intro st
    simp only [List.foldl_cons, List.length_cons]
    rw [ih (scanLine p st l)]
    have h := scanLine_counts p st l
    omega

/-- C1: for every content string and every language label (and any file
name), the classifier's counters satisfy
blank + comment + code = total lines, where the total is exactly the number
of pieces produced by splitting the content on the newline character. -/
theorem C1_counter_partition (content filename language : String) :
    (analyzeFileContent content filename language).blank +
        (analyzeFileContent content filename language).comment +
        (analyzeFileContent content filename language).code
      = (analyzeFileContent content filename language).lines ∧
    (analyzeFileContent content filename language).lines
      = (jsSplit '\n' content.toList).length := by
  refine ⟨?_, rfl⟩
  simp only [analyzeFileContent]
  rw [foldl_scanLine_counts]
  simp

/-- C5: a line whose trimmed form is empty only increments the blank
counter: the comment and code counters and the `inBlockComment` flag are
left exactly as they were, whatever the grammar and the current state. -/
theorem C5_blank_line_step (p : CommentPatterns) (st : ScanState)
    (line : List Char) (h : jsTrim line = []) :
    scanLine p st line = { st with blank := st.blank + 1 } := by
  simp [scanLine, h]

/-- Witness for C5 at a whitespace-only line inside a block comment. -/
theorem C5_witness :
    jsTrim [' ', '\t'] = [] ∧
      scanLine (getCommentPatterns "C") ⟨1, 2, 3, true⟩ [' ', '\t']
        = ⟨2, 2, 3, true⟩ :=
  ⟨by decide, C5_blank_line_step (getCommentPatterns "C") ⟨1, 2, 3, true⟩ [' ', '\t'] (by decide)⟩

/-- C6: when the scanner is already inside a block comment and the trimmed
line contains the block-end marker, the line is counted as a comment and the
block state is cleared, with no hypothesis on whether the same line also
contains the block-start marker — the already-inside branch never re-sets
the flag. -/
theorem C6_close_never_reopens (p : CommentPatterns) (st : ScanState)
    (line : List Char)
    (hbs : truthy p.blockStart = true) (hbe : truthy p.blockEnd = true)
    (hin : st.inBlockComment = true)
    (hnb : jsTrim line ≠ [])
    (hend : jsIncludes (p.blockEnd.getD "").toList (jsTrim line) = true) :
    (scanLine p st line).inBlockComment = false ∧
      (scanLine p st line).comment = st.comment + 1 := by
  have hend2 : jsIncludes (p.blockEnd.getD "").data (jsTrim line) = true := hend
  simp [scanLine, hnb, blockScan, hbs, hbe, hin, hend2]

/-- Witness for C6: a closing line that also contains the opener, under the
C grammar, leaves the block state cleared. -/
theorem C6_witness :
    (scanLine (getCommentPatterns "C") ⟨0, 0, 0, true⟩
        ['*', '/', ' ', '/', '*']).inBlockComment = false ∧
      (scanLine (getCommentPatterns "C") ⟨0, 0, 0, true⟩
        ['*', '/', ' ', '/', '*']).comment = 0 + 1 :=
  C6_close_never_reopens (getCommentPatterns "C") ⟨0, 0, 0, true⟩
    ['*', '/', ' ', '/', '*'] (by decide) (by decide) rfl (by decide) (by decide)

/-- C4: for a grammar with both block markers, once the scanner is inside a
block comment and no later line contains the block-end marker, every later
non-whitespace-only line is counted as a comment (the code counter never
moves and the state stays inside the block); in particular the two content
lines of "/* never closes\nline2\n" under language C classify as
comment_lines = 2, code_lines = 0. -/
theorem C4_unterminated_block :
    (∀ (p : CommentPatterns) (lines : List (List Char)) (st : ScanState),
      truthy p.blockStart = true → truthy p.blockEnd = true →
      st.inBlockComment = true →
      (∀ l ∈ lines, jsIncludes (p.blockEnd.getD "").toList (jsTrim l) = false) →
      (lines.foldl (scanLine p) st).code = st.code ∧
        (lines.foldl (scanLine p) st).comment
          = st.comment + lines.countP (fun l => !(jsTrim l).isEmpty) ∧
        (lines.foldl (scanLine p) st).inBlockComment = true) ∧
    (analyzeFileContent "/* never closes\nline2\n" "a.c" "C").comment = 2 ∧
    (analyzeFileContent "/* never closes\nline2\n" "a.c" "C").code = 0 := by
  refine ⟨?_, by decide, by decide⟩
  intro p lines
  induction lines with
  | nil =>
    intro st _ _ hin _
    simpa using hin
  | cons l t ih =>
    intro st hbs hbe hin hno
    have hnol : jsIncludes (p.blockEnd.getD "").data (jsTrim l) = false :=
      hno l (List.mem_cons_self l t)
    simp only [List.foldl_cons, List.countP_cons]
    by_cases hb : jsTrim l = []
    · have hstep : scanLine p st l = { st with blank := st.blank + 1 } := by
        simp [scanLine, hb]
      rw [hstep]
      have := ih { st with blank := st.blank + 1 } hbs hbe hin
        (fun x hx => hno x (List.mem_cons_of_mem l hx))
      simp only [hb] at *
      simpa using this
    · have hstep : scanLine p st l
          = { st with comment := st.comment + 1, inBlockComment := true } := by
        simp [scanLine, hb, blockScan, hbs, hbe, hin, hnol]
      rw [hstep]
      have h2 := ih { st with comment := st.comment + 1, inBlockComment := true }
        hbs hbe rfl (fun x hx => hno x (List.mem_cons_of_mem l hx))
      refine ⟨h2.1, ?_, h2.2.2⟩
      rw [h2.2.1]
      simp [hb]
      omega

/-- Witness for C4's general part, at the tail of the C example: one code
candidate line and one trailing empty line scanned from inside a block. -/
theorem C4_witness :
    ([['l', 'i', 'n', 'e', '2'], []].foldl
        (scanLine (getCommentPatterns "C")) ⟨0, 1, 0, true⟩).code = 0 ∧
      ([['l', 'i', 'n', 'e', '2'], []].foldl
        (scanLine (getCommentPatterns "C")) ⟨0, 1, 0, true⟩).comment = 2 ∧
      ([['l', 'i', 'n', 'e', '2'], []].foldl
        (scanLine (getCommentPatterns "C")) ⟨0, 1, 0, true⟩).inBlockComment = true :=
  C4_unterminated_block.1 (getCommentPatterns "C") [['l', 'i', 'n', 'e', '2'], []]
    ⟨0, 1, 0, true⟩ (by decide) (by decide) rfl (by decide)

lemma blockScan_same_marker (p : CommentPatterns) (trimmed : List Char)
    (h : p.blockStart = p.blockEnd) :
    (blockScan p false trimmed).2 = false := by
  simp only [blockScan, h]
  split
  · simp only [if_neg Bool.false_ne_true]
    split <;> simp_all
  · rfl

/-- C10: when the block-start and block-end markers are the same string, a
scan that is outside a block stays outside after every line — a delimiter
line opens and immediately closes the block in the same step — so under the
Python grammar the line strictly between two docstring delimiter lines of
"\"\"\"\ndoc\n\"\"\"\nx = 1\n" counts as code: the whole content yields
comment_lines = 2 and code_lines = 2. -/
theorem C10_same_marker_stays_outside :
    (∀ (p : CommentPatterns) (st : ScanState) (line : List Char),
      p.blockStart = p.blockEnd →
      st.inBlockComment = false →
      (scanLine p st line).inBlockComment = false) ∧
    (analyzeFileContent "\"\"\"\ndoc\n\"\"\"\nx = 1\n" "a.py" "Python").comment = 2 ∧
    (analyzeFileContent "\"\"\"\ndoc\n\"\"\"\nx = 1\n" "a.py" "Python").code = 2 := by
  refine ⟨?_, by decide, by decide⟩
  intro p st line h hin
  simp only [scanLine]
  split
  · simpa using hin
  · have hb : (blockScan p st.inBlockComment (jsTrim line)).2 = false := by
      rw [hin]
      exact blockScan_same_marker p (jsTrim line) h
    split <;> simp [hb]

/-- Witness for C10's general part: a Python docstring delimiter line scanned
from outside a block leaves the scanner outside. -/
theorem C10_witness :
    (scanLine (getCommentPatterns "Python") ⟨0, 0, 0, false⟩
      "\"\"\" docstring".toList).inBlockComment = false :=
  C10_same_marker_stays_outside.1 (getCommentPatterns "Python") ⟨0, 0, 0, false⟩
    "\"\"\" docstring".toList rfl rfl

/-- C3 counterexample: on "a\n// comment\n\nb = 1\n" under JavaScript the
classifier does NOT produce total 4 / blank 1 / comment 1 / code 2 — the
trailing newline yields a fifth, empty, line that is counted blank. -/
theorem C3_counterexample :
    ¬ ((analyzeFileContent "a\n// comment\n\nb = 1\n" "a.js" "JavaScript").lines = 4 ∧
       (analyzeFileContent "a\n// comment\n\nb = 1\n" "a.js" "JavaScript").blank = 1 ∧
       (analyzeFileContent "a\n// comment\n\nb = 1\n" "a.js" "JavaScript").comment = 1 ∧
       (analyzeFileContent "a\n// comment\n\nb = 1\n" "a.js" "JavaScript").code = 2) := by
  decide

/-- C3 amended: classifying "a\n// comment\n\nb = 1\n" under JavaScript
yields exactly total_lines = 5, blank_lines = 2, comment_lines = 1,
code_lines = 2. -/
theorem C3_amended_eval :
    analyzeFileContent "a\n// comment\n\nb = 1\n" "a.js" "JavaScript"
      = ⟨"a.js", "JavaScript", 5, 2, 1, 2⟩ := by
  decide

/-! ## The resolver and the last-dot extension (C2) -/

/-- The suffix of a character list after its last '.', when one occurs. -/
def lastDotSuffix : List Char → Option (List Char)
  | [] => none
  | c :: t =>
    match lastDotSuffix t with
    | some r => some r
    | none => if c = '.' then some t else none

/-- The extension as the amended spec words it: the substring after the last
'.' when the name contains one, the whole name otherwise, lowercased. -/
def extSpec (filename : String) : String :=
  String.mk (jsToLower ((lastDotSuffix filename.toList).getD filename.toList))

lemma jsSplit_ne_nil (sep : Char) (l : List Char) : jsSplit sep l ≠ [] := by
  cases l with
  | nil => simp [jsSplit]
  | cons c t =>
    simp only [jsSplit]
    split
    · simp
    · split <;> simp

lemma getLastD_cons_of_ne_nil {x : List Char} {r : List (List Char)}
    (hr : r ≠ []) (d : List Char) : (x :: r).getLastD d = r.getLastD d := by
  cases r with
  | nil => exact absurd rfl hr
  | cons y t => rw [List.getLastD_cons, List.getLastD_cons, List.getLastD_cons]

lemma jsSplit_no_dot (l : List Char) (h : lastDotSuffix l = none) :
    jsSplit '.' l = [l] := by
  induction l with
  | nil => rfl
  | cons c t ih =>
    simp only [lastDotSuffix] at h
    rcases ht : lastDotSuffix t with _ | r
    · rw [ht] at h
      simp only [] at h
      split at h
      · exact absurd h (by simp)
      · rename_i hc
        simp only [jsSplit, ih ht, if_neg hc]
    · rw [ht] at h
      simp at h

lemma jsSplit_lastDot_some (l : List Char) :
    ∀ r, lastDotSuffix l = some r →
      (jsSplit '.' l).getLastD [] = r ∧ 2 ≤ (jsSplit '.' l).length := by
  induction l with
  | nil => intro r h; simp [lastDotSuffix] at h
  | cons c t ih =>
    intro r h
    simp only [lastDotSuffix] at h
    rcases ht : lastDotSuffix t with _ | r0 <;> rw [ht] at h
    · by_cases hc : c = '.'
      · rw [if_pos hc] at h
        have hr : t = r := Option.some.inj h
        subst hr
        subst hc
        rw [show jsSplit '.' ('.' :: t) = [] :: jsSplit '.' t from by simp [jsSplit]]
        rw [jsSplit_no_dot t ht]
        exact ⟨rfl, by simp⟩
      · rw [if_neg hc] at h
        exact absurd h (by simp)
    · have hr : r0 = r := Option.some.inj h
      subst hr
      obtain ⟨ih1, ih2⟩ := ih r0 ht
      rcases hs : jsSplit '.' t with _ | ⟨h0, t2⟩
      · exact absurd hs (jsSplit_ne_nil '.' t)
      · have ht2 : t2 ≠ [] := by
          intro hh
          rw [hs, hh] at ih2
          simp at ih2
        rw [hs] at ih1
        by_cases hc : c = '.'
        · subst hc
          rw [show jsSplit '.' ('.' :: t) = [] :: jsSplit '.' t from by simp [jsSplit]]
          rw [hs]
          refine ⟨?_, by simp⟩
          rw [getLastD_cons_of_ne_nil (by simp) []]
          exact ih1
        · rw [show jsSplit '.' (c :: t) = (c :: h0) :: t2 from by
            simp only [jsSplit, if_neg hc, hs]]
          refine ⟨?_, ?_⟩
          · rw [getLastD_cons_of_ne_nil ht2 []]
            rw [← getLastD_cons_of_ne_nil (x := h0) ht2 []]
            exact ih1
          · cases t2 with
            | nil => exact absurd rfl ht2
            | cons z zs => simp

lemma jsExtOf_eq_extSpec (filename : String) : jsExtOf filename = extSpec filename := by
  unfold jsExtOf extSpec
  rcases h : lastDotSuffix filename.toList with _ | r
  · rw [jsSplit_no_dot filename.toList h]
    simp
  · rw [(jsSplit_lastDot_some filename.toList r h).1]
    simp

/-- C2 counterexample: the file name "py" contains no '.', yet the resolver
returns "Python", not the "Unknown" sentinel — with no dot, JS
`split('.').pop()` is the whole name, not the empty string. -/
theorem C2_counterexample :
    ('.' ∉ "py".toList) ∧ getLanguageFromExtension "py" = "Python" ∧
      getLanguageFromExtension "py" ≠ "Unknown" :=
  ⟨by decide, by decide, by decide⟩

/-- C2 amended: the resolver looks up, in the fixed extension table, the
lowercased substring after the last '.' of the file name — the whole
lowercased name when it contains no '.' — and returns "Unknown" exactly when
that key is absent; it is a total function. -/
theorem C2_amended_resolver (filename : String) :
    getLanguageFromExtension filename
      = (languageMap.lookup (extSpec filename)).getD "Unknown" := by
  rw [getLanguageFromExtension, jsExtOf_eq_extSpec]

/-! ## The grammar table coverage (C7) -/

/-- C7 counterexample: "JSON" is a label the resolver produces (for
"data.json"), yet the grammar table has no entry for it, so grammar lookup
uses the default fallback for a known label. -/
theorem C7_counterexample :
    getLanguageFromExtension "data.json" = "JSON" ∧
      "JSON" ∈ languageMap.map Prod.snd ∧
      patternsList.lookup "JSON" = none ∧
      getCommentPatterns "JSON" = ⟨some "//", none, none⟩ :=
  ⟨by decide, by decide, by decide, by decide⟩

/-- C7 amended: every label in the extension table's range except "JSON",
"Markdown" and "Text" has a grammar entry; any label absent from the grammar
table — "Unknown" among them — yields the default grammar with only the
single-line marker "//", with no error. -/
theorem C7_amended_grammar_table :
    (∀ label ∈ languageMap.map Prod.snd,
      label ≠ "JSON" → label ≠ "Markdown" → label ≠ "Text" →
        (patternsList.lookup label).isSome = true) ∧
    (∀ lang, patternsList.lookup lang = none →
      getCommentPatterns lang = ⟨some "//", none, none⟩) ∧
    patternsList.lookup "Unknown" = none := by
  refine ⟨by decide, ?_, by decide⟩
  intro lang h
  rw [getCommentPatterns, h]
  rfl

/-- Witness for C7's amended statement at the labels "Shell" and
"Unknown". -/
theorem C7_witness :
    (patternsList.lookup "Shell").isSome = true ∧
      getCommentPatterns "Unknown" = ⟨some "//", none, none⟩ :=
  ⟨C7_amended_grammar_table.1 "Shell" (by decide) (by decide) (by decide) (by decide),
   C7_amended_grammar_table.2.1 "Unknown" (by decide)⟩

/-! ## Aggregation: sums and permutation invariance (C8, C9) -/

lemma LS_eq (x y : LanguageStats) (h1 : x.files = y.files)
    (h2 : x.blank = y.blank) (h3 : x.comment = y.comment)
    (h4 : x.code = y.code) (h5 : x.total = y.total) : x = y := by
  cases x; cases y; simp_all

lemma addLS_assoc (x y z : LanguageStats) :
    addLS (addLS x y) z = addLS x (addLS y z) := by
  simp [addLS]; omega

lemma addLS_zero_right (x : LanguageStats) : addLS x zeroLS = x := by
  cases x; simp [addLS, zeroLS]

lemma addLS_zero_left (x : LanguageStats) : addLS zeroLS x = x := by
  cases x; simp [addLS, zeroLS]

def sumLS (entries : List (String × LanguageStats)) : LanguageStats :=
  entries.foldr (fun kv acc => addLS kv.2 acc) zeroLS

def fileSum (analyses : List FileStats) : LanguageStats :=
  analyses.foldr (fun a acc => addLS (deltaLS a) acc) zeroLS

lemma foldl_addLS (entries : List (String × LanguageStats)) :
    ∀ z, entries.foldl (fun acc kv => addLS acc kv.2) z = addLS z (sumLS entries) := by
  induction entries with
  | nil => intro z; simp [sumLS, addLS_zero_right]
  | cons kv t ih =>
    intro z
    simp only [List.foldl_cons, sumLS, List.foldr_cons]
    rw [ih (addLS z kv.2), addLS_assoc]
    rfl

lemma grandTotal_eq_sumLS (entries : List (String × LanguageStats)) :
    grandTotal entries = sumLS entries := by
  rw [grandTotal, foldl_addLS, addLS_zero_left]

lemma sumLS_updateAssoc (m : List (String × LanguageStats)) (lang : String)
    (a : FileStats) :
    sumLS (updateAssoc m lang (bump a)) = addLS (sumLS m) (deltaLS a) := by
  induction m with
  | nil =>
    simp only [updateAssoc, sumLS, List.foldr_cons, List.foldr_nil]
    apply LS_eq <;> simp [addLS, zeroLS, bump, deltaLS]
  | cons kv t ih =>
    rcases kv with ⟨k, v⟩
    simp only [updateAssoc]
    split
    · simp only [sumLS, List.foldr_cons]
      apply LS_eq <;> simp [addLS, bump, deltaLS, sumLS] <;> try omega
    · simp only [sumLS, List.foldr_cons]
      have := ih
      simp only [sumLS] at this
      rw [this]
      apply LS_eq <;> simp [addLS] <;> omega

lemma sumLS_foldl_agg (analyses : List FileStats) :
    ∀ m, sumLS (analyses.foldl aggregateStep m) = addLS (sumLS m) (fileSum analyses) := by
  induction analyses with
  | nil => intro m; simp [fileSum, addLS_zero_right]
  | cons a t ih =>
    intro m
    simp only [List.foldl_cons, fileSum, List.foldr_cons]
    rw [ih (aggregateStep m a)]
    rw [aggregateStep, sumLS_updateAssoc]
    rw [addLS_assoc]
    rfl

lemma grandTotal_agg (analyses : List FileStats) :
    grandTotal (aggregateStats analyses) = fileSum analyses := by
  rw [grandTotal_eq_sumLS, aggregateStats, sumLS_foldl_agg]
  simp [sumLS, addLS_zero_left]

lemma sumLS_field (f : LanguageStats → Nat)
    (hf : ∀ x y, f (addLS x y) = f x + f y) (h0 : f zeroLS = 0) :
    ∀ entries : List (String × LanguageStats),
      f (sumLS entries) = (entries.map (fun kv => f kv.2)).sum := by
  intro entries
  induction entries with
  | nil => simpa [sumLS] using h0
  | cons kv t ih => simp [sumLS, hf, List.sum_cons] at ih ⊢; omega

lemma fileSum_field (f : LanguageStats → Nat)
    (hf : ∀ x y, f (addLS x y) = f x + f y) (h0 : f zeroLS = 0) :
    ∀ analyses : List FileStats,
      f (fileSum analyses) = (analyses.map (fun a => f (deltaLS a))).sum := by
  intro analyses
  induction analyses with
  | nil => simpa [fileSum] using h0
  | cons a t ih => simp [fileSum, hf, List.sum_cons] at ih ⊢; omega

lemma sum_map_one {α : Type} (l : List α) : (l.map (fun _ => 1)).sum = l.length := by
  induction l with
  | nil => rfl
  | cons a t ih => simp [ih]; omega

/-- C8: each field of the grand total equals the field-wise sum of that
field over all per-language entries, and also the sum of the corresponding
field over all per-file FileStats (the files field counting one per file);
with zero input files the grand total is all-zero. -/
theorem C8_grand_total_sums (files : List (String × String)) :
    ((useCodeAnalyzer files).total.files
        = ((useCodeAnalyzer files).languages.map (fun kv => kv.2.files)).sum ∧
      (useCodeAnalyzer files).total.blank
        = ((useCodeAnalyzer files).languages.map (fun kv => kv.2.blank)).sum ∧
      (useCodeAnalyzer files).total.comment
        = ((useCodeAnalyzer files).languages.map (fun kv => kv.2.comment)).sum ∧
      (useCodeAnalyzer files).total.code
        = ((useCodeAnalyzer files).languages.map (fun kv => kv.2.code)).sum ∧
      (useCodeAnalyzer files).total.total
        = ((useCodeAnalyzer files).languages.map (fun kv => kv.2.total)).sum) ∧
    ((useCodeAnalyzer files).total.files = (useCodeAnalyzer files).files.length ∧
      (useCodeAnalyzer files).total.blank
        = ((useCodeAnalyzer files).files.map (fun a => a.blank)).sum ∧
      (useCodeAnalyzer files).total.comment
        = ((useCodeAnalyzer files).files.map (fun a => a.comment)).sum ∧
      (useCodeAnalyzer files).total.code
        = ((useCodeAnalyzer files).files.map (fun a => a.code)).sum ∧
      (useCodeAnalyzer files).total.total
        = ((useCodeAnalyzer files).files.map (fun a => a.lines)).sum) ∧
    (useCodeAnalyzer []).total = zeroLS := by
  refine ⟨⟨?_, ?_, ?_, ?_, ?_⟩, ⟨?_, ?_, ?_, ?_, ?_⟩, rfl⟩ <;>
    simp only [useCodeAnalyzer]
  · rw [grandTotal_eq_sumLS]
    exact sumLS_field (fun s => s.files) (fun x y => rfl) rfl _
  · rw [grandTotal_eq_sumLS]
    exact sumLS_field (fun s => s.blank) (fun x y => rfl) rfl _
  · rw [grandTotal_eq_sumLS]
    exact sumLS_field (fun s => s.comment) (fun x y => rfl) rfl _
  · rw [grandTotal_eq_sumLS]
    exact sumLS_field (fun s => s.code) (fun x y => rfl) rfl _
  · rw [grandTotal_eq_sumLS]
    exact sumLS_field (fun s => s.total) (fun x y => rfl) rfl _
  · rw [grandTotal_agg]
    rw [fileSum_field (fun s => s.files) (fun x y => rfl) rfl]
    simp [deltaLS, Function.comp_def]
  · rw [grandTotal_agg]
    exact fileSum_field (fun s => s.blank) (fun x y => rfl) rfl _
  · rw [grandTotal_agg]
    exact fileSum_field (fun s => s.comment) (fun x y => rfl) rfl _
  · rw [grandTotal_agg]
    exact fileSum_field (fun s => s.code) (fun x y => rfl) rfl _
  · rw [grandTotal_agg]
    exact fileSum_field (fun s => s.total) (fun x y => rfl) rfl _

def deltaSumFor (lang : String) (analyses : List FileStats) : LanguageStats :=
  fileSum (analyses.filter (fun a => a.language == lang))

lemma lookup_cons_eq_if (k0 lang : String) (v : LanguageStats)
    (t : List (String × LanguageStats)) :
    ((k0, v) :: t).lookup lang = if lang = k0 then some v else t.lookup lang := by
  rw [List.lookup_cons]
  by_cases h : lang = k0
  · simp [h]
  · simp [h, beq_eq_false_iff_ne.mpr h]

lemma lookup_updateAssoc (m : List (String × LanguageStats)) (k : String)
    (f : LanguageStats → LanguageStats) (lang : String) :
    (updateAssoc m k f).lookup lang
      = if lang = k then some (f ((m.lookup k).getD zeroLS))
        else m.lookup lang := by
  induction m with
  | nil =>
    simp only [updateAssoc, List.lookup_nil, lookup_cons_eq_if]
    by_cases h : lang = k <;> simp [h]
  | cons kv t ih =>
    rcases kv with ⟨k0, v⟩
    simp only [updateAssoc]
    by_cases hk : k0 = k
    · subst hk
      rw [if_pos rfl]
      rw [lookup_cons_eq_if, lookup_cons_eq_if, lookup_cons_eq_if]
      by_cases h : lang = k0 <;> simp [h]
    · rw [if_neg hk]
      simp only [lookup_cons_eq_if, ih]
      by_cases h : lang = k0
      · have hlk : ¬ lang = k := by rw [h]; exact hk
        simp [h, hlk, hk]
      · simp [h, Ne.symm hk]

lemma lookup_foldl_agg (analyses : List FileStats) :
    ∀ (m : List (String × LanguageStats)) (lang : String),
      (analyses.foldl aggregateStep m).lookup lang
        = if m.lookup lang = none ∧ ∀ a ∈ analyses, ¬ a.language = lang
          then none
          else some (addLS ((m.lookup lang).getD zeroLS) (deltaSumFor lang analyses)) := by
  induction analyses with
  | nil =>
    intro m lang
    simp only [List.foldl_nil]
    rcases hm : m.lookup lang with _ | s
    · simp [hm]
    · simp [hm, deltaSumFor, fileSum, addLS_zero_right]
  | cons a t ih =>
    intro m lang
    simp only [List.foldl_cons]
    rw [ih (aggregateStep m a) lang, aggregateStep, lookup_updateAssoc]
    by_cases ha : a.language = lang
    · rw [if_pos ha.symm]
      have hcond1 : ¬ (some (bump a ((m.lookup a.language).getD zeroLS)) = none ∧
          ∀ x ∈ t, ¬ x.language = lang) := by
        intro hc
        exact Option.some_ne_none _ hc.1
      rw [if_neg hcond1]
      have hcond2 : ¬ (m.lookup lang = none ∧ ∀ x ∈ a :: t, ¬ x.language = lang) := by
        intro hc
        exact hc.2 a (List.mem_cons_self a t) ha
      rw [if_neg hcond2]
      have hds : deltaSumFor lang (a :: t) = addLS (deltaLS a) (deltaSumFor lang t) := by
        simp [deltaSumFor, List.filter_cons, ha, fileSum]
      rw [hds, ha]
      simp only [Option.getD_some]
      rw [show bump a ((m.lookup lang).getD zeroLS)
            = addLS ((m.lookup lang).getD zeroLS) (deltaLS a) from rfl]
      rw [addLS_assoc]
    · have hla : ¬ lang = a.language := fun hh => ha hh.symm
      rw [if_neg hla]
      have hiff : (m.lookup lang = none ∧ ∀ x ∈ t, ¬ x.language = lang)
          ↔ (m.lookup lang = none ∧ ∀ x ∈ a :: t, ¬ x.language = lang) := by
        constructor
        · rintro ⟨h1, h2⟩
          refine ⟨h1, fun x hx => ?_⟩
          rcases List.mem_cons.mp hx with h | h
          · rw [h]; exact ha
          · exact h2 x h
        · rintro ⟨h1, h2⟩
          exact ⟨h1, fun x hx => h2 x (List.mem_cons_of_mem a hx)⟩
      have hds : deltaSumFor lang (a :: t) = deltaSumFor lang t := by
        simp [deltaSumFor, List.filter_cons, ha]
      rw [hds]
      exact if_congr hiff rfl rfl

lemma fileSum_perm {l1 l2 : List FileStats} (h : l1.Perm l2) :
    fileSum l1 = fileSum l2 := by
  have hm : ∀ f : FileStats → Nat, (l1.map f).sum = (l2.map f).sum :=
    fun f => (h.map f).sum_eq
  apply LS_eq
  · exact (fileSum_field (fun s => s.files) (fun x y => rfl) rfl l1).trans
      ((hm _).trans (fileSum_field (fun s => s.files) (fun x y => rfl) rfl l2).symm)
  · exact (fileSum_field (fun s => s.blank) (fun x y => rfl) rfl l1).trans
      ((hm _).trans (fileSum_field (fun s => s.blank) (fun x y => rfl) rfl l2).symm)
  · exact (fileSum_field (fun s => s.comment) (fun x y => rfl) rfl l1).trans
      ((hm _).trans (fileSum_field (fun s => s.comment) (fun x y => rfl) rfl l2).symm)
  · exact (fileSum_field (fun s => s.code) (fun x y => rfl) rfl l1).trans
      ((hm _).trans (fileSum_field (fun s => s.code) (fun x y => rfl) rfl l2).symm)
  · exact (fileSum_field (fun s => s.total) (fun x y => rfl) rfl l1).trans
      ((hm _).trans (fileSum_field (fun s => s.total) (fun x y => rfl) rfl l2).symm)

/-- C9: aggregating a permutation of a per-file stats sequence yields the
same per-language LanguageStats value for every language label and the same
grand total as aggregating the original sequence. -/
theorem C9_aggregation_perm_invariant (l1 l2 : List FileStats) (h : l1.Perm l2) :
    (∀ lang, (aggregateStats l1).lookup lang = (aggregateStats l2).lookup lang) ∧
      grandTotal (aggregateStats l1) = grandTotal (aggregateStats l2) := by
  constructor
  · intro lang
    rw [aggregateStats, aggregateStats, lookup_foldl_agg, lookup_foldl_agg]
    have hc : (List.lookup lang ([] : List (String × LanguageStats)) = none ∧
          ∀ a ∈ l1, ¬ a.language = lang)
        ↔ (List.lookup lang ([] : List (String × LanguageStats)) = none ∧
          ∀ a ∈ l2, ¬ a.language = lang) := by
      constructor
      · rintro ⟨h1, h2⟩
        exact ⟨h1, fun a ha => h2 a (h.mem_iff.mpr ha)⟩
      · rintro ⟨h1, h2⟩
        exact ⟨h1, fun a ha => h2 a (h.mem_iff.mp ha)⟩
    have hd : deltaSumFor lang l1 = deltaSumFor lang l2 := by
      rw [deltaSumFor, deltaSumFor]
      exact fileSum_perm (h.filter _)
    rw [hd]
    exact if_congr hc rfl rfl
  · rw [grandTotal_agg, grandTotal_agg]
    exact fileSum_perm h

/-- Witness for C9: two concrete per-file stats swapped. -/
theorem C9_witness :
    (aggregateStats [⟨"a.py", "Python", 3, 1, 1, 1⟩, ⟨"b.js", "JavaScript", 2, 0, 1, 1⟩]).lookup "Python"
        = (aggregateStats [⟨"b.js", "JavaScript", 2, 0, 1, 1⟩, ⟨"a.py", "Python", 3, 1, 1, 1⟩]).lookup "Python" ∧
      grandTotal (aggregateStats [⟨"a.py", "Python", 3, 1, 1, 1⟩, ⟨"b.js", "JavaScript", 2, 0, 1, 1⟩])
        = grandTotal (aggregateStats [⟨"b.js", "JavaScript", 2, 0, 1, 1⟩, ⟨"a.py", "Python", 3, 1, 1, 1⟩]) :=
  ⟨(C9_aggregation_perm_invariant _ _ (by decide)).1 "Python", (C9_aggregation_perm_invariant _ _ (by decide)).2⟩
